import Mathlib

/-!
Shallow embedding of the search, highlighting and settings logic of the
qubes-desktop-linux-menu repository (`qubes_menu/utils.py` and
`qubes_menu/appmenu.py`), together with proofs about it.

Python strings are modelled as `List Char`; Python's stable `list.sort`
is modelled by Mathlib's stable `insertionSort` (any stable sort by the
same key produces the same list); GTK calls are modelled as an opaque
environment of results.
-/

namespace QubesMenu

/-- Python strings are modelled as lists of characters. -/
abbrev PyStr := List Char

/-- Python `text.find(word)`: index of the leftmost occurrence of `word` as a
contiguous substring of `text`; `none` models Python's `-1` (not found). -/
def pyFind (word : PyStr) : PyStr → Option Nat
  | [] => if word.isPrefixOf ([] : PyStr) then some 0 else none
  | c :: rest =>
    if word.isPrefixOf (c :: rest) then some 0
    else (pyFind word rest).map (· + 1)

/-- Python `needle in hay` (substring containment). -/
def pyContains (hay needle : PyStr) : Bool := (pyFind needle hay).isSome

/-- The scanning loop of `text_search` (utils.py lines 85-90): a prefix hit
returns 1, a substring hit returns 0.5, otherwise continue; 0 after the loop. -/
def text_search_loop (search_word : PyStr) : List PyStr → ℚ
  | [] => 0
  | text_word :: rest =>
    if search_word.isPrefixOf text_word then 1
    else if pyContains text_word search_word then 1/2
    else text_search_loop search_word rest

/-- utils.py `text_search` (lines 77-90): empty search word scores 0,
otherwise scan the candidate words. -/
def text_search (search_word : PyStr) (text_words : List PyStr) : ℚ :=
  if search_word = [] then 0 else text_search_loop search_word text_words

/-- Replacement step of `parse_search`: `-` and `_` become spaces. -/
def replaceSep (c : Char) : Char :=
  if c = '-' then ' ' else if c = '_' then ' ' else c

/-- utils.py `parse_search` (lines 70-74): lowercase (ASCII model of
`str.lower` via `Char.toLower`), replace `-` and `_` by spaces, split on
single spaces (`str.split(' ')` keeps empty chunks, like `List.splitOn`),
drop empty ("falsy") words. -/
def parse_search (search_text : PyStr) : List PyStr :=
  let search_words := ((search_text.map Char.toLower).map replaceSep).splitOn ' '
  search_words.filter (fun w => !w.isEmpty)

/-- The interval-merging loop of `highlight_words` (utils.py lines 121-128),
run on the sorted list with `cur` being the currently open last interval:
if the next interval starts no later than the current end, fuse them,
otherwise emit the current interval and open the next one. -/
def mergeAux (cur : Nat × Nat) : List (Nat × Nat) → List (Nat × Nat)
  | [] => [cur]
  | i :: rest =>
    if i.1 ≤ cur.2 then mergeAux (cur.1, max cur.2 i.2) rest
    else cur :: mergeAux i rest

/-- Sort key of `found_intervals.sort(key=lambda x: x[0])`. -/
def byStart (p q : Nat × Nat) : Prop := p.1 ≤ q.1

instance : DecidableRel byStart := fun p q => Nat.decLe p.1 q.1

instance : IsTotal (Nat × Nat) byStart := ⟨fun p q => Nat.le_total p.1 q.1⟩

instance : IsTrans (Nat × Nat) byStart := ⟨fun _ _ _ h1 h2 => Nat.le_trans h1 h2⟩

/-- `found_intervals.sort(key=lambda x: x[0])` (utils.py line 120): Python's
`list.sort` is stable, and every stable sort by the same key computes the same
list, so Mathlib's stable `insertionSort` is a faithful model. -/
def sortIntervals (l : List (Nat × Nat)) : List (Nat × Nat) :=
  List.insertionSort byStart l

/-- `result_intervals = [found_intervals[0]]` followed by the loop over
`found_intervals[1:]` (utils.py lines 121-128), for an already sorted list;
an empty list yields an empty result (the `if not found_intervals: continue`
guard at line 117). -/
def mergeCore : List (Nat × Nat) → List (Nat × Nat)
  | [] => []
  | a :: t => mergeAux a t

/-- The full interval merge of `highlight_words` (utils.py lines 117-128):
sort by start, then fold the merging loop; empty input gives empty output. -/
def mergeIntervals (l : List (Nat × Nat)) : List (Nat × Nat) :=
  mergeCore (sortIntervals l)

/-- A point `x` lies in one of the half-open intervals of `ivs`. -/
def covers (ivs : List (Nat × Nat)) (x : Nat) : Prop :=
  ∃ iv ∈ ivs, iv.1 ≤ x ∧ x < iv.2

/-- Removal of the first occurrence of an interval, used to reason about
order-independence of the merge. -/
def eraseFirst (b : Nat × Nat) : List (Nat × Nat) → List (Nat × Nat)
  | [] => []
  | a :: t => if a = b then t else a :: eraseFirst b t

/-- Interval collection of `highlight_words` (utils.py lines 110-115): for
each search word, `search_text.find(word)`, and on success record the interval
`(start, start + len(word))`; `search_text` is the lowercased label text. -/
def found_intervals (text : PyStr) (search_words : List PyStr) : List (Nat × Nat) :=
  let search_text := text.map Char.toLower
  search_words.filterMap fun word =>
    (pyFind word search_text).map fun start => (start, start + word.length)

/-- One markup insertion (utils.py lines 131-133):
`text[:start] + hl_tag + text[start:end] + close + text[end:]`. -/
def spliceTag (hlTag closeTag : PyStr) (text : PyStr) (iv : Nat × Nat) : PyStr :=
  text.take iv.1 ++ hlTag ++ (text.drop iv.1).take (iv.2 - iv.1)
    ++ closeTag ++ text.drop iv.2

/-- The insertion loop of `highlight_words` (utils.py lines 130-133): the
intervals are processed in reversed order, so the head interval of the list is
spliced in last. -/
def insertMarkup (hlTag closeTag : PyStr) (text : PyStr) : List (Nat × Nat) → PyStr
  | [] => text
  | iv :: rest => spliceTag hlTag closeTag (insertMarkup hlTag closeTag text rest) iv

/-- Canonical left-to-right rendering of markup around intervals, used to
state what `insertMarkup` computes: emit the plain text from `pos` up to the
interval start, the open tag, the interval's span, the close tag, then
continue after the interval end. -/
def renderFrom (hlTag closeTag : PyStr) (text : PyStr) (pos : Nat) :
    List (Nat × Nat) → PyStr
  | [] => text.drop pos
  | iv :: rest =>
    (text.drop pos).take (iv.1 - pos) ++ hlTag
      ++ (text.drop iv.1).take (iv.2 - iv.1) ++ closeTag
      ++ renderFrom hlTag closeTag text iv.2 rest

/-- Opaque pixbuf values: either a blank placeholder of a given size
(`GdkPixbuf.Pixbuf.new` followed by `fill(0x000)`, utils.py lines 53-56) or an
externally produced image, identified by an opaque id. -/
inductive Pixbuf
  | blank (width height : Nat)
  | image (id : Nat)
deriving DecidableEq

/-- The two external GTK calls made by `load_icon` for a fixed icon name and
size: `none` models a raised `GLib.Error`/`TypeError`, `some p` a successful
load. -/
structure IconEnv where
  newFromFileAtSize : Option Pixbuf
  themeLoadIcon : Option Pixbuf
deriving DecidableEq

/-- utils.py `load_icon` (lines 30-56) as the code executes it: first
`GdkPixbuf.Pixbuf.new_from_file_at_size` (icon name treated as a file path),
on failure `Gtk.IconTheme.get_default().load_icon` (named theme icon), on
failure a blank pixbuf of the requested size. Total: never raises. -/
def load_icon (env : IconEnv) (width height : Nat) : Pixbuf :=
  match env.newFromFileAtSize with
  | some p => p
  | none =>
    match env.themeLoadIcon with
    | some p => p
    | none => Pixbuf.blank width height

/-- Modelled from the spec: "try as a named theme icon → try as a file path →
produce a blank placeholder of the requested size" (the order the `load_icon`
docstring also states). -/
def load_icon_spec_order (env : IconEnv) (width height : Nat) : Pixbuf :=
  match env.themeLoadIcon with
  | some p => p
  | none =>
    match env.newFromFileAtSize with
    | some p => p
    | none => Pixbuf.blank width height

/-- Numeric value of a decimal digit string. -/
def natOfDigits (ds : PyStr) : Nat :=
  ds.foldl (fun n c => 10 * n + (c.toNat - '0'.toNat)) 0

/-- Nonempty and all decimal digits. -/
def isDigitStr (s : PyStr) : Bool := !s.isEmpty && s.all Char.isDigit

/-- Python `int(s)` on a string (the builtin used at appmenu.py line 356):
strip surrounding spaces, allow one optional sign, then a nonempty run of
decimal digits; anything else raises `ValueError`, modelled as `none`. -/
def pyInt (s : PyStr) : Option Int :=
  let t := ((s.dropWhile (· == ' ')).reverse.dropWhile (· == ' ')).reverse
  match t with
  | '-' :: ds => if isDigitStr ds then some (-(natOfDigits ds : Int)) else none
  | '+' :: ds => if isDigitStr ds then some (natOfDigits ds : Int) else none
  | ds => if isDigitStr ds then some (natOfDigits ds : Int) else none

/-- appmenu.py `load_settings` (lines 351-359), initial-page part:
`initial_page = int(local_vm.features.get(INITIAL_PAGE_FEATURE, 1))` inside
`try`, with `except ValueError: initial_page = 1`. A missing feature makes
`features.get` return the default `1` (an `int`, so `int(1) = 1`); a present
feature is a string passed to `int`, and a `ValueError` is caught locally and
replaced by the default `1`. -/
def load_settings_initial_page (feature : Option PyStr) : Int :=
  match feature with
  | none => 1
  | some s =>
    match pyInt s with
    | some n => n
    | none => 1

/-! ### Helper lemmas about `pyFind` and `pyContains` -/

theorem pyFind_eq_some {word : PyStr} : ∀ {t : PyStr} {i : Nat},
    pyFind word t = some i →
    word <+: t.drop i ∧ ∀ j, j < i → ¬ word <+: t.drop j := by
  intro t
  induction t with
  | nil =>
    intro i h
    rw [pyFind] at h
    split at h
    · rename_i hpre
      obtain rfl : i = 0 := by simpa using h.symm
      refine ⟨List.isPrefixOf_iff_prefix.mp hpre, ?_⟩
      intro j hj
      omega
    · exact absurd h (by simp)
  | cons c rest ih =>
    intro i h
    rw [pyFind] at h
    split at h
    · rename_i hpre
      obtain rfl : i = 0 := by simpa using h.symm
      refine ⟨List.isPrefixOf_iff_prefix.mp hpre, ?_⟩
      intro j hj
      omega
    · rename_i hpre
      simp only [Option.map_eq_some'] at h
      obtain ⟨i0, hfind, rfl⟩ := h
      obtain ⟨hp, hleft⟩ := ih hfind
      refine ⟨by simpa using hp, ?_⟩
      intro j hj
      cases j with
      | zero =>
        simpa using fun hcontra => hpre (List.isPrefixOf_iff_prefix.mpr hcontra)
      | succ j0 =>
        have := hleft j0 (by omega)
        simpa using this

theorem pyContains_length_le {hay needle : PyStr} (h : pyContains hay needle = true) :
    needle.length ≤ hay.length := by
  rw [pyContains, Option.isSome_iff_exists] at h
  obtain ⟨i, hi⟩ := h
  have hp := (pyFind_eq_some hi).1
  calc needle.length ≤ (hay.drop i).length := hp.length_le
    _ ≤ hay.length := by simp

theorem ts_loop_range (q : PyStr) : ∀ ws : List PyStr,
    text_search_loop q ws = 0 ∨ text_search_loop q ws = 1/2 ∨
      text_search_loop q ws = 1 := by
  intro ws
  induction ws with
  | nil => left; rfl
  | cons w rest ih =>
    rw [text_search_loop]
    split
    · right; right; rfl
    · split
      · right; left; rfl
      · exact ih

theorem ts_loop_of_long {q : PyStr} : ∀ {ws : List PyStr},
    (∀ w ∈ ws, w.length < q.length) → text_search_loop q ws = 0 := by
  intro ws
  induction ws with
  | nil => intro _; rfl
  | cons w rest ih =>
    intro h
    have hw := h w (List.mem_cons_self w rest)
    rw [text_search_loop]
    rw [if_neg, if_neg]
    · exact ih fun v hv => h v (List.mem_cons_of_mem w hv)
    · intro hcon
      exact absurd (pyContains_length_le hcon) (by omega)
    · intro hpre
      have := (List.isPrefixOf_iff_prefix.mp hpre).length_le
      omega

/-! ### Claim theorems about search and settings -/

/-- Claim C5: the match rank is always one of 0, 0.5, 1; the concrete cases
rank("fi",["file","edit"]) = 1, rank("le",["file"]) = 0.5,
rank("xyz",["file"]) = 0 hold; the empty query word ranks 0 against every
candidate list; and a query word longer than every candidate word ranks 0. -/
theorem c5_rank_cases :
    text_search ['f', 'i'] [['f', 'i', 'l', 'e'], ['e', 'd', 'i', 't']] = 1 ∧
    text_search ['l', 'e'] [['f', 'i', 'l', 'e']] = 1/2 ∧
    text_search ['x', 'y', 'z'] [['f', 'i', 'l', 'e']] = 0 ∧
    (∀ ws : List PyStr, text_search [] ws = 0) ∧
    (∀ (q : PyStr) (ws : List PyStr),
      text_search q ws = 0 ∨ text_search q ws = 1/2 ∨ text_search q ws = 1) ∧
    (∀ (q : PyStr) (ws : List PyStr), (∀ w ∈ ws, w.length < q.length) →
      text_search q ws = 0) := by
  refine ⟨rfl, rfl, rfl, fun ws => by simp [text_search], ?_, ?_⟩
  · intro q ws
    rw [text_search]
    split
    · left; rfl
    · exact ts_loop_range q ws
  · intro q ws h
    rw [text_search]
    split
    · rfl
    · exact ts_loop_of_long h

/-- Witness for C5: a query word longer than every candidate word ranks 0,
at the concrete input q = "xy", ws = ["a"]. -/
theorem c5_witness :
    (∀ w ∈ ([['a']] : List PyStr), w.length < (['x', 'y'] : PyStr).length) ∧
    text_search ['x', 'y'] [['a']] = 0 :=
  ⟨by decide, c5_rank_cases.2.2.2.2.2 ['x', 'y'] [['a']] (by decide)⟩

/-- Claim C4: tokenization lowercases the text, replaces dashes and
underscores by spaces, splits on spaces and drops empty tokens:
parse_search "Foo-Bar_Baz" = ["foo","bar","baz"], parse_search "" = [], and
no produced token is ever empty. -/
theorem c4_tokenize :
    parse_search ['F', 'o', 'o', '-', 'B', 'a', 'r', '_', 'B', 'a', 'z']
      = [['f', 'o', 'o'], ['b', 'a', 'r'], ['b', 'a', 'z']] ∧
    parse_search [] = [] ∧
    (∀ s : PyStr, ∀ w ∈ parse_search s, w ≠ []) := by
  refine ⟨by decide, by decide, ?_⟩
  intro s w hw
  simp only [parse_search, List.mem_filter] at hw
  intro hnil
  rw [hnil] at hw
  simpa using hw.2

/-- Witness for C4: the token "foo" produced from "Foo" is nonempty. -/
theorem c4_witness :
    (['f', 'o', 'o'] : PyStr) ∈ parse_search ['F', 'o', 'o'] ∧
    (['f', 'o', 'o'] : PyStr) ≠ [] :=
  ⟨by decide, c4_tokenize.2.2 ['F', 'o', 'o'] ['f', 'o', 'o'] (by decide)⟩

/-- Claim C1 is false on the code: for q = "le" and ws = ["tile", "less"],
"less" starts with q and the earlier word "tile" contains q only as a
non-prefix substring, yet the rank is 0.5, not 1 --- `text_search` returns
0.5 immediately on a substring hit instead of continuing to scan. -/
theorem c1_counterexample :
    (['l', 'e'] : PyStr) ≠ [] ∧
    (['l', 'e'] : PyStr).isPrefixOf ['l', 'e', 's', 's'] = true ∧
    (['l', 'e'] : PyStr).isPrefixOf ['t', 'i', 'l', 'e'] = false ∧
    pyContains ['t', 'i', 'l', 'e'] ['l', 'e'] = true ∧
    text_search ['l', 'e'] [['t', 'i', 'l', 'e'], ['l', 'e', 's', 's']] ≠ 1 := by
  refine ⟨by decide, by decide, by decide, by decide, ?_⟩
  have h : text_search ['l', 'e'] [['t', 'i', 'l', 'e'], ['l', 'e', 's', 's']]
      = 1/2 := rfl
  rw [h]
  norm_num

/-- Claim C1 amended: if some candidate word starts with the non-empty query
word q and no earlier candidate word contains q as a substring, then the
match rank is 1 (a substring hit returns 0.5 at once; scanning stops). -/
theorem c1_amended_prefix_rank (q : PyStr) (pre post : List PyStr) (w : PyStr)
    (hq : q ≠ []) (hw : q.isPrefixOf w = true)
    (hpre : ∀ v ∈ pre, pyContains v q = false) :
    text_search q (pre ++ w :: post) = 1 := by
  rw [text_search, if_neg hq]
  induction pre with
  | nil =>
    rw [List.nil_append, text_search_loop, if_pos hw]
  | cons v rest ih =>
    have hv := hpre v (List.mem_cons_self v rest)
    rw [List.cons_append, text_search_loop, if_neg, if_neg]
    · exact ih fun u hu => hpre u (List.mem_cons_of_mem v hu)
    · rw [hv]; simp
    · intro hp
      have hc : pyContains v q = true := by
        rw [pyContains, Option.isSome_iff_exists]
        cases v with
        | nil => exact ⟨0, by rw [pyFind, if_pos hp]⟩
        | cons c cs => exact ⟨0, by rw [pyFind, if_pos hp]⟩
      rw [hv] at hc
      exact absurd hc (by simp)

/-- Witness for the amended C1: q = "fi", candidate list ["file"]. -/
theorem c1_witness :
    (['f', 'i'] : PyStr) ≠ [] ∧
    (['f', 'i'] : PyStr).isPrefixOf ['f', 'i', 'l', 'e'] = true ∧
    (∀ v ∈ ([] : List PyStr), pyContains v ['f', 'i'] = false) ∧
    text_search ['f', 'i'] ([] ++ ['f', 'i', 'l', 'e'] :: []) = 1 :=
  ⟨by decide, by decide, by decide,
    c1_amended_prefix_rank ['f', 'i'] [] [] ['f', 'i', 'l', 'e']
      (by decide) (by decide) (by decide)⟩

/-- Claim C9: a missing "initial page" feature value yields the default 1; a
string value that does not parse as an integer is caught locally and also
yields 1; a string value that parses yields the parsed integer (no error
reaches the caller: the modelled function is total). -/
theorem c9_initial_page_default :
    load_settings_initial_page none = 1 ∧
    (∀ s : PyStr, pyInt s = none → load_settings_initial_page (some s) = 1) ∧
    (∀ (s : PyStr) (n : Int), pyInt s = some n →
      load_settings_initial_page (some s) = n) := by
  refine ⟨rfl, fun s h => by simp [load_settings_initial_page, h],
    fun s n h => by simp [load_settings_initial_page, h]⟩

/-- Witness for C9: the non-integer feature value "nope" yields the default
initial page 1. -/
theorem c9_witness :
    pyInt ['n', 'o', 'p', 'e'] = none ∧
    load_settings_initial_page (some ['n', 'o', 'p', 'e']) = 1 :=
  ⟨by decide, c9_initial_page_default.2.1 ['n', 'o', 'p', 'e'] (by decide)⟩

/-- Claim C8 against the code: `load_icon` never raises (it is total by
construction and ends in a blank placeholder of the requested size), but the
fallback chain runs in the opposite order of the claim: the code first treats
the icon name as a file path and only then as a named theme icon, so in an
environment where both loads succeed with different images the code returns
the file image while the claimed (and docstring) order returns the theme
image. -/
theorem c8_fallback_order_divergence :
    load_icon ⟨some (Pixbuf.image 0), some (Pixbuf.image 1)⟩ 16 16
      = Pixbuf.image 0 ∧
    load_icon_spec_order ⟨some (Pixbuf.image 0), some (Pixbuf.image 1)⟩ 16 16
      = Pixbuf.image 1 ∧
    load_icon ⟨none, some (Pixbuf.image 1)⟩ 16 16 = Pixbuf.image 1 ∧
    load_icon ⟨none, none⟩ 16 16 = Pixbuf.blank 16 16 :=
  ⟨rfl, rfl, rfl, rfl⟩

/-- Claim C10: the interval-collection step records at most one interval per
search word, and every recorded interval (s, e) comes from a word w of the
search words with e = s + |w|, w occurring in the lowercased label text at
position s and at no earlier position. -/
theorem c10_found_intervals_leftmost (text : PyStr) (ws : List PyStr) :
    (found_intervals text ws).length ≤ ws.length ∧
    ∀ iv ∈ found_intervals text ws, ∃ w ∈ ws,
      iv.2 = iv.1 + w.length ∧
      w <+: (text.map Char.toLower).drop iv.1 ∧
      ∀ j, j < iv.1 → ¬ w <+: (text.map Char.toLower).drop j := by
  constructor
  · exact List.length_filterMap_le _ _
  · intro iv hiv
    simp only [found_intervals, List.mem_filterMap] at hiv
    obtain ⟨w, hwmem, hf⟩ := hiv
    simp only [Option.map_eq_some'] at hf
    obtain ⟨start, hfind, rfl⟩ := hf
    obtain ⟨hp, hleft⟩ := pyFind_eq_some hfind
    exact ⟨w, hwmem, rfl, hp, hleft⟩

/-! ### Helper lemmas about markup insertion -/

theorem spliceTag_append (ot ct text R : PyStr) (iv : Nat × Nat)
    (hse : iv.1 ≤ iv.2) (hel : iv.2 ≤ text.length) :
    spliceTag ot ct (text.take iv.2 ++ R) iv
      = text.take iv.1 ++ ot ++ (text.drop iv.1).take (iv.2 - iv.1)
        ++ ct ++ R := by
  obtain ⟨s, e⟩ := iv
  have hse1 : s ≤ e := hse
  have hel1 : e ≤ text.length := hel
  have hlen : (text.take e).length = e := by
    rw [List.length_take]
    exact Nat.min_eq_left hel1
  have h1 : (text.take e ++ R).take s = text.take s := by
    rw [List.take_append_eq_append_take, hlen, List.take_take,
      Nat.min_eq_left hse1, Nat.sub_eq_zero_of_le hse1, List.take_zero,
      List.append_nil]
  have h2 : (text.take e ++ R).drop s = (text.drop s).take (e - s) ++ R := by
    rw [List.drop_append_eq_append_drop, hlen,
      Nat.sub_eq_zero_of_le hse1, List.drop_zero]
    congr 1
    rw [List.take_drop]
    have hadd : s + (e - s) = e := by omega
    rw [hadd]
  have h3 : (text.take e ++ R).drop e = R := by
    rw [List.drop_append_eq_append_drop, hlen, Nat.sub_self, List.drop_zero,
      List.drop_eq_nil_of_le (le_of_eq hlen), List.nil_append]
  have h4 : ((text.drop s).take (e - s) ++ R).take (e - s)
      = (text.drop s).take (e - s) := by
    have hl : ((text.drop s).take (e - s)).length = e - s := by
      rw [List.length_take, List.length_drop]
      exact Nat.min_eq_left (by omega)
    rw [List.take_append_eq_append_take, hl, Nat.sub_self, List.take_zero,
      List.append_nil, List.take_take, Nat.min_self]
  show (text.take e ++ R).take s ++ ot
      ++ ((text.take e ++ R).drop s).take (e - s) ++ ct
      ++ (text.take e ++ R).drop e
    = text.take s ++ ot ++ (text.drop s).take (e - s) ++ ct ++ R
  rw [h1, h2, h4, h3]

/-- The reversed-order insertion of sorted disjoint in-bounds intervals
computes the canonical left-to-right rendering: positions of intervals not
yet processed are never shifted. -/
theorem insertMarkup_renderFrom_aux :
    ∀ (ivs : List (Nat × Nat)) (ot ct text : PyStr) (p : Nat),
      List.Chain' (fun a b : Nat × Nat => a.2 ≤ b.1) ivs →
      (∀ iv ∈ ivs, iv.1 ≤ iv.2 ∧ iv.2 ≤ text.length) →
      (∀ iv ∈ ivs.head?, p ≤ iv.1) →
      insertMarkup ot ct text ivs
        = text.take p ++ renderFrom ot ct text p ivs := by
  intro ivs
  induction ivs with
  | nil =>
    intro ot ct text p _ _ _
    rw [insertMarkup, renderFrom, List.take_append_drop]
  | cons iv rest ih =>
    intro ot ct text p hchain hwf hp
    have hse : iv.1 ≤ iv.2 := (hwf iv (List.mem_cons_self _ _)).1
    have hel : iv.2 ≤ text.length := (hwf iv (List.mem_cons_self _ _)).2
    have hps : p ≤ iv.1 := hp iv rfl
    have hIH := ih ot ct text iv.2 (List.chain'_cons'.mp hchain).2
      (fun jv hjv => hwf jv (List.mem_cons_of_mem _ hjv))
      (List.chain'_cons'.mp hchain).1
    rw [insertMarkup, hIH,
      spliceTag_append ot ct text (renderFrom ot ct text iv.2 rest) iv
        hse hel,
      renderFrom]
    have hkey : text.take p ++ (text.drop p).take (iv.1 - p)
        = text.take iv.1 := by
      have hadd : p + (iv.1 - p) = iv.1 := by omega
      rw [← List.take_add, hadd]
    simp only [← List.append_assoc]
    rw [hkey]

/-- Rendering with empty delimiters reconstructs the original text:
stripping all inserted delimiters from the output recovers the input. -/
theorem renderFrom_nil_tags :
    ∀ (ivs : List (Nat × Nat)) (text : PyStr) (p : Nat),
      List.Chain' (fun a b : Nat × Nat => a.2 ≤ b.1) ivs →
      (∀ iv ∈ ivs, iv.1 ≤ iv.2) →
      (∀ iv ∈ ivs.head?, p ≤ iv.1) →
      renderFrom [] [] text p ivs = text.drop p := by
  intro ivs
  induction ivs with
  | nil => intro text p _ _ _; rw [renderFrom]
  | cons iv rest ih =>
    intro text p hchain hwf hp
    have hps : p ≤ iv.1 := hp iv rfl
    have hse : iv.1 ≤ iv.2 := hwf iv (List.mem_cons_self _ _)
    rw [renderFrom, ih text iv.2 (List.chain'_cons'.mp hchain).2
      (fun jv hjv => hwf jv (List.mem_cons_of_mem _ hjv))
      (List.chain'_cons'.mp hchain).1]
    simp only [List.append_nil]
    have h1 : (text.drop p).drop (iv.1 - p) = text.drop iv.1 := by
      rw [List.drop_drop]
      have hadd : p + (iv.1 - p) = iv.1 := by omega
      rw [hadd]
    have h2 : (text.drop iv.1).drop (iv.2 - iv.1) = text.drop iv.2 := by
      rw [List.drop_drop]
      have hadd : iv.1 + (iv.2 - iv.1) = iv.2 := by omega
      rw [hadd]
    conv_rhs => rw [← List.take_append_drop (iv.1 - p) (text.drop p), h1,
      ← List.take_append_drop (iv.2 - iv.1) (text.drop iv.1), h2]
    rw [List.append_assoc]

/-- Claim C3: inserting the markup delimiters around sorted, pairwise
disjoint, in-bounds intervals in reverse order yields the canonical
left-to-right rendering, in which every interval's original span appears
unchanged between its delimiters (earlier insertions never shift the
offsets of intervals not yet processed); with empty delimiters the insertion
returns the original string, so stripping all inserted delimiters recovers
it. -/
theorem c3_insert_markup_canonical (ot ct text : PyStr)
    (ivs : List (Nat × Nat))
    (hchain : List.Chain' (fun a b : Nat × Nat => a.2 ≤ b.1) ivs)
    (hwf : ∀ iv ∈ ivs, iv.1 ≤ iv.2 ∧ iv.2 ≤ text.length) :
    insertMarkup ot ct text ivs = renderFrom ot ct text 0 ivs ∧
    insertMarkup [] [] text ivs = text := by
  constructor
  · have h := insertMarkup_renderFrom_aux ivs ot ct text 0 hchain hwf
      (fun jv _ => Nat.zero_le _)
    simpa using h
  · have h1 := insertMarkup_renderFrom_aux ivs ([] : PyStr) [] text 0 hchain
      hwf (fun jv _ => Nat.zero_le _)
    have h2 := renderFrom_nil_tags ivs text 0 hchain
      (fun iv hiv => (hwf iv hiv).1) (fun jv _ => Nat.zero_le _)
    rw [h1, h2]
    simp

/-- Witness for C3: text "abcd" with intervals [(1,2), (3,4)] and delimiter
strings "<" and ">". -/
theorem c3_witness :
    List.Chain' (fun a b : Nat × Nat => a.2 ≤ b.1) [(1, 2), (3, 4)] ∧
    (∀ iv ∈ ([(1, 2), (3, 4)] : List (Nat × Nat)),
      iv.1 ≤ iv.2 ∧ iv.2 ≤ (['a', 'b', 'c', 'd'] : PyStr).length) ∧
    (insertMarkup ['<'] ['>'] ['a', 'b', 'c', 'd'] [(1, 2), (3, 4)]
        = renderFrom ['<'] ['>'] ['a', 'b', 'c', 'd'] 0 [(1, 2), (3, 4)] ∧
      insertMarkup [] [] ['a', 'b', 'c', 'd'] [(1, 2), (3, 4)]
        = ['a', 'b', 'c', 'd']) :=
  ⟨List.chain'_cons.mpr ⟨by decide, List.chain'_singleton _⟩, by decide,
    c3_insert_markup_canonical ['<'] ['>'] ['a', 'b', 'c', 'd']
      [(1, 2), (3, 4)]
      (List.chain'_cons.mpr ⟨by decide, List.chain'_singleton _⟩)
      (by decide)⟩

/-! ### Helper lemmas about interval sorting and merging -/

theorem sortIntervals_perm (l : List (Nat × Nat)) :
    List.Perm (sortIntervals l) l :=
  List.perm_insertionSort byStart l

theorem sortIntervals_sorted (l : List (Nat × Nat)) :
    (sortIntervals l).Sorted byStart :=
  List.sorted_insertionSort byStart l

theorem sortIntervals_of_sorted {l : List (Nat × Nat)} (h : l.Sorted byStart) :
    sortIntervals l = l :=
  List.Sorted.insertionSort_eq h

theorem mergeAux_head : ∀ (l : List (Nat × Nat)) (cur : Nat × Nat),
    ∃ e t, mergeAux cur l = (cur.1, e) :: t := by
  intro l
  induction l with
  | nil => intro cur; exact ⟨cur.2, [], rfl⟩
  | cons i rest ih =>
    intro cur
    rw [mergeAux]
    by_cases h : i.1 ≤ cur.2
    · rw [if_pos h]
      obtain ⟨e, t, heq⟩ := ih (cur.1, max cur.2 i.2)
      exact ⟨e, t, heq⟩
    · rw [if_neg h]
      exact ⟨cur.2, mergeAux i rest, rfl⟩

theorem mergeAux_mem_fst : ∀ (l : List (Nat × Nat)) (cur p : Nat × Nat),
    p ∈ mergeAux cur l → p.1 = cur.1 ∨ ∃ q ∈ l, p.1 = q.1 := by
  intro l
  induction l with
  | nil =>
    intro cur p hp
    rw [mergeAux, List.mem_singleton] at hp
    left; rw [hp]
  | cons i rest ih =>
    intro cur p hp
    rw [mergeAux] at hp
    by_cases h : i.1 ≤ cur.2
    · rw [if_pos h] at hp
      rcases ih _ p hp with h1 | ⟨q, hq, h2⟩
      · left; exact h1
      · right; exact ⟨q, List.mem_cons_of_mem _ hq, h2⟩
    · rw [if_neg h, List.mem_cons] at hp
      rcases hp with rfl | hp2
      · left; rfl
      · rcases ih _ p hp2 with h1 | ⟨q, hq, h2⟩
        · right; exact ⟨i, List.mem_cons_self i rest, h1⟩
        · right; exact ⟨q, List.mem_cons_of_mem _ hq, h2⟩

theorem mergeAux_chain : ∀ (l : List (Nat × Nat)) (cur : Nat × Nat),
    List.Chain' (fun p q : Nat × Nat => p.2 < q.1) (mergeAux cur l) := by
  intro l
  induction l with
  | nil => intro cur; rw [mergeAux]; exact List.chain'_singleton cur
  | cons i rest ih =>
    intro cur
    rw [mergeAux]
    by_cases h : i.1 ≤ cur.2
    · rw [if_pos h]; exact ih _
    · rw [if_neg h]
      obtain ⟨e, t, heq⟩ := mergeAux_head rest i
      rw [heq]
      refine List.chain'_cons.mpr ⟨by simpa using by omega, ?_⟩
      rw [← heq]
      exact ih i

theorem mergeAux_sorted : ∀ (l : List (Nat × Nat)) (cur : Nat × Nat),
    (cur :: l).Sorted byStart → (mergeAux cur l).Sorted byStart := by
  intro l
  induction l with
  | nil =>
    intro cur _
    rw [mergeAux]
    exact List.sorted_singleton cur
  | cons i rest ih =>
    intro cur h
    rw [List.sorted_cons] at h
    rw [mergeAux]
    by_cases hc : i.1 ≤ cur.2
    · rw [if_pos hc]
      apply ih
      rw [List.sorted_cons]
      exact ⟨fun b hb => h.1 b (List.mem_cons_of_mem _ hb),
        (List.sorted_cons.mp h.2).2⟩
    · rw [if_neg hc, List.sorted_cons]
      refine ⟨?_, ih i h.2⟩
      intro b hb
      rcases mergeAux_mem_fst rest i b hb with h1 | ⟨q, hq, h2⟩
      · have := h.1 i (List.mem_cons_self i rest)
        show cur.1 ≤ b.1
        rw [h1]
        exact this
      · have := h.1 q (List.mem_cons_of_mem _ hq)
        show cur.1 ≤ b.1
        rw [h2]
        exact this

theorem mergeAux_id : ∀ (l : List (Nat × Nat)) (cur : Nat × Nat),
    List.Chain' (fun p q : Nat × Nat => p.2 < q.1) (cur :: l) →
    mergeAux cur l = cur :: l := by
  intro l
  induction l with
  | nil => intro cur _; rfl
  | cons i rest ih =>
    intro cur h
    rw [List.chain'_cons] at h
    rw [mergeAux, if_neg (by omega), ih i h.2]

theorem covers_cons {a : Nat × Nat} {l : List (Nat × Nat)} {x : Nat} :
    covers (a :: l) x ↔ (a.1 ≤ x ∧ x < a.2) ∨ covers l x := by
  constructor
  · rintro ⟨iv, hiv, h1, h2⟩
    rcases List.mem_cons.mp hiv with rfl | hm
    · exact Or.inl ⟨h1, h2⟩
    · exact Or.inr ⟨iv, hm, h1, h2⟩
  · rintro (⟨h1, h2⟩ | ⟨iv, hm, h1, h2⟩)
    · exact ⟨a, List.mem_cons_self a l, h1, h2⟩
    · exact ⟨iv, List.mem_cons_of_mem a hm, h1, h2⟩

theorem covers_of_perm {l1 l2 : List (Nat × Nat)} (hp : List.Perm l1 l2)
    {x : Nat} : covers l1 x ↔ covers l2 x := by
  constructor
  · rintro ⟨iv, hm, h1, h2⟩
    exact ⟨iv, hp.subset hm, h1, h2⟩
  · rintro ⟨iv, hm, h1, h2⟩
    exact ⟨iv, hp.symm.subset hm, h1, h2⟩

theorem mergeAux_covers : ∀ (l : List (Nat × Nat)) (cur : Nat × Nat),
    (cur :: l).Sorted byStart →
    ∀ x, covers (mergeAux cur l) x ↔ covers (cur :: l) x := by
  intro l
  induction l with
  | nil => intro cur _ x; rw [mergeAux]
  | cons i rest ih =>
    intro cur h x
    rw [List.sorted_cons] at h
    have hcs : cur.1 ≤ i.1 := h.1 i (List.mem_cons_self i rest)
    rw [mergeAux]
    by_cases hc : i.1 ≤ cur.2
    · rw [if_pos hc]
      have hs : ((cur.1, max cur.2 i.2) :: rest).Sorted byStart :=
        List.sorted_cons.mpr ⟨fun b hb => h.1 b (List.mem_cons_of_mem _ hb),
          (List.sorted_cons.mp h.2).2⟩
      rw [ih _ hs x, covers_cons, covers_cons, covers_cons]
      constructor
      · rintro (⟨h1, h2⟩ | hr)
        · rcases lt_max_iff.mp h2 with h3 | h3
          · exact Or.inl ⟨h1, h3⟩
          · by_cases h4 : x < cur.2
            · exact Or.inl ⟨h1, h4⟩
            · exact Or.inr (Or.inl ⟨by omega, h3⟩)
        · exact Or.inr (Or.inr hr)
      · rintro (⟨h1, h2⟩ | ⟨h1, h2⟩ | hr)
        · exact Or.inl ⟨h1, lt_of_lt_of_le h2 (le_max_left _ _)⟩
        · exact Or.inl ⟨le_trans hcs h1, lt_of_lt_of_le h2 (le_max_right _ _)⟩
        · exact Or.inr hr
    · rw [if_neg hc, covers_cons, covers_cons, covers_cons, ih i h.2 x,
        covers_cons]

theorem mergeAux_pairwise : ∀ (l : List (Nat × Nat)) (cur : Nat × Nat),
    (cur :: l).Sorted byStart →
    List.Pairwise (fun p q : Nat × Nat => p.2 < q.1) (mergeAux cur l) := by
  intro l
  induction l with
  | nil =>
    intro cur _
    rw [mergeAux]
    exact List.pairwise_singleton _ cur
  | cons i rest ih =>
    intro cur h
    rw [List.sorted_cons] at h
    rw [mergeAux]
    by_cases hc : i.1 ≤ cur.2
    · rw [if_pos hc]
      exact ih _ (List.sorted_cons.mpr
        ⟨fun b hb => h.1 b (List.mem_cons_of_mem _ hb),
          (List.sorted_cons.mp h.2).2⟩)
    · rw [if_neg hc]
      refine List.pairwise_cons.mpr ⟨?_, ih i h.2⟩
      intro p hp
      rcases mergeAux_mem_fst rest i p hp with h1 | ⟨q, hq, h2⟩
      · omega
      · have hiq : i.1 ≤ q.1 := (List.sorted_cons.mp h.2).1 q hq
        omega

/-- Claim C2: for every input list of intervals with start ≤ end, the merged
output is sorted by start, pairwise disjoint with no two intervals touching
(consecutive output ends lie strictly before the next start), and the output
intervals cover exactly the points covered by the input intervals (each
output interval is the union of the overlapping or touching inputs fused
into it). -/
theorem c2_merge_invariants (l : List (Nat × Nat))
    (_hwf : ∀ iv ∈ l, iv.1 ≤ iv.2) :
    (mergeIntervals l).Sorted byStart ∧
    List.Pairwise (fun p q : Nat × Nat => p.2 < q.1) (mergeIntervals l) ∧
    ∀ x, covers (mergeIntervals l) x ↔ covers l x := by
  rw [mergeIntervals]
  cases hs : sortIntervals l with
  | nil =>
    have hl : l = [] := by
      have hp := sortIntervals_perm l
      rw [hs] at hp
      exact (List.Perm.eq_nil hp.symm)
    subst hl
    exact ⟨List.sorted_nil, List.Pairwise.nil, fun x => Iff.rfl⟩
  | cons a t =>
    have hsorted : (a :: t).Sorted byStart := by
      rw [← hs]; exact sortIntervals_sorted l
    have hp : List.Perm (a :: t) l := by
      rw [← hs]; exact sortIntervals_perm l
    refine ⟨mergeAux_sorted t a hsorted, mergeAux_pairwise t a hsorted, ?_⟩
    intro x
    show covers (mergeAux a t) x ↔ covers l x
    rw [mergeAux_covers t a hsorted x]
    exact covers_of_perm hp

/-- Witness for C2 at the concrete well-formed input
[(0,3), (2,5), (8,10)]. -/
theorem c2_witness :
    (∀ iv ∈ ([(0, 3), (2, 5), (8, 10)] : List (Nat × Nat)), iv.1 ≤ iv.2) ∧
    ((mergeIntervals [(0, 3), (2, 5), (8, 10)]).Sorted byStart ∧
      List.Pairwise (fun p q : Nat × Nat => p.2 < q.1)
        (mergeIntervals [(0, 3), (2, 5), (8, 10)]) ∧
      ∀ x, covers (mergeIntervals [(0, 3), (2, 5), (8, 10)]) x ↔
        covers [(0, 3), (2, 5), (8, 10)] x) :=
  ⟨by decide, c2_merge_invariants [(0, 3), (2, 5), (8, 10)] (by decide)⟩

theorem mergeAux_cons_le (cur i : Nat × Nat) (rest : List (Nat × Nat))
    (h : i.1 ≤ cur.2) :
    mergeAux cur (i :: rest) = mergeAux (cur.1, max cur.2 i.2) rest := by
  rw [mergeAux, if_pos h]

theorem mergeAux_cons_gt (cur i : Nat × Nat) (rest : List (Nat × Nat))
    (h : ¬ i.1 ≤ cur.2) :
    mergeAux cur (i :: rest) = cur :: mergeAux i rest := by
  rw [mergeAux, if_neg h]

/-- Removing the first occurrence keeps a sublist. -/
theorem eraseFirst_sublist (b : Nat × Nat) :
    ∀ l : List (Nat × Nat), List.Sublist (eraseFirst b l) l := by
  intro l
  induction l with
  | nil => exact List.Sublist.refl []
  | cons a t ih =>
    rw [eraseFirst]
    by_cases h : a = b
    · rw [if_pos h]
      exact List.sublist_cons_self a t
    · rw [if_neg h]
      exact List.Sublist.cons₂ a ih

theorem mem_of_mem_eraseFirst {b iv : Nat × Nat} {l : List (Nat × Nat)}
    (h : iv ∈ eraseFirst b l) : iv ∈ l :=
  (eraseFirst_sublist b l).subset h

theorem perm_cons_eraseFirst {b : Nat × Nat} :
    ∀ {l : List (Nat × Nat)}, b ∈ l →
      List.Perm l (b :: eraseFirst b l) := by
  intro l
  induction l with
  | nil => intro h; exact absurd h (List.not_mem_nil b)
  | cons a t ih =>
    intro hb
    rw [eraseFirst]
    by_cases h : a = b
    · rw [if_pos h, h]
    · rw [if_neg h]
      have hbt : b ∈ t := by
        rcases List.mem_cons.mp hb with h1 | h1
        · exact absurd h1.symm h
        · exact h1
      exact (List.Perm.cons a (ih hbt)).trans (List.Perm.swap b a _)

theorem length_eraseFirst {b : Nat × Nat} :
    ∀ {l : List (Nat × Nat)}, b ∈ l →
      (eraseFirst b l).length + 1 = l.length := by
  intro l
  induction l with
  | nil => intro h; exact absurd h (List.not_mem_nil b)
  | cons a t ih =>
    intro hb
    rw [eraseFirst]
    by_cases h : a = b
    · rw [if_pos h, List.length_cons]
    · rw [if_neg h]
      have hbt : b ∈ t := by
        rcases List.mem_cons.mp hb with h1 | h1
        · exact absurd h1.symm h
        · exact h1
      rw [List.length_cons, List.length_cons, ih hbt]

/-- Moving a minimal-start element of a sorted well-formed list to the front
does not change the merge: elements sharing the minimal start always fuse
into the open interval, in either order. -/
theorem mergeAux_mtf : ∀ (l : List (Nat × Nat)) (c b : Nat × Nat),
    b ∈ l → l.Sorted byStart → (∀ iv ∈ l, iv.1 ≤ iv.2) →
    (∀ iv ∈ l, b.1 ≤ iv.1) →
    mergeAux c l = mergeAux c (b :: eraseFirst b l) := by
  intro l
  induction l with
  | nil => intro c b hb _ _ _; exact absurd hb (List.not_mem_nil b)
  | cons a t ih =>
    intro c b hb hs hwf hmin
    by_cases hab : b = a
    · subst hab
      rw [eraseFirst, if_pos rfl]
    · have hbt : b ∈ t := by
        rcases List.mem_cons.mp hb with h | h
        · exact absurd h hab
        · exact h
      have hba : b.1 = a.1 :=
        le_antisymm (hmin a (List.mem_cons_self a t))
          ((List.sorted_cons.mp hs).1 b hbt)
      have ih_inst : ∀ c' : Nat × Nat,
          mergeAux c' t = mergeAux c' (b :: eraseFirst b t) :=
        fun c' => ih c' b hbt (List.sorted_cons.mp hs).2
          (fun iv hiv => hwf iv (List.mem_cons_of_mem a hiv))
          (fun iv hiv => hmin iv (List.mem_cons_of_mem a hiv))
      have herase : eraseFirst b (a :: t) = a :: eraseFirst b t := by
        rw [eraseFirst, if_neg (fun h => hab h.symm)]
      rw [herase]
      have hwa : a.1 ≤ a.2 := hwf a (List.mem_cons_self a t)
      have hwb : b.1 ≤ b.2 := hwf b hb
      by_cases hc : a.1 ≤ c.2
      · have hc2 : b.1 ≤ c.2 := by rw [hba]; exact hc
        rw [mergeAux_cons_le c a t hc, ih_inst (c.1, max c.2 a.2),
          mergeAux_cons_le c b (a :: eraseFirst b t) hc2,
          mergeAux_cons_le (c.1, max c.2 b.2) a (eraseFirst b t)
            (le_trans hc (le_max_left _ _)),
          mergeAux_cons_le (c.1, max c.2 a.2) b (eraseFirst b t)
            (le_trans hc2 (le_max_left _ _))]
        show mergeAux (c.1, max (max c.2 a.2) b.2) (eraseFirst b t)
          = mergeAux (c.1, max (max c.2 b.2) a.2) (eraseFirst b t)
        rw [sup_right_comm]
      · have hc2 : ¬ b.1 ≤ c.2 := by rw [hba]; exact hc
        rw [mergeAux_cons_gt c a t hc, ih_inst a,
          mergeAux_cons_le a b (eraseFirst b t) (by rw [hba]; exact hwa),
          mergeAux_cons_gt c b (a :: eraseFirst b t) hc2,
          mergeAux_cons_le b a (eraseFirst b t) (by rw [← hba]; exact hwb)]
        show c :: mergeAux (a.1, max a.2 b.2) (eraseFirst b t)
          = c :: mergeAux (b.1, max b.2 a.2) (eraseFirst b t)
        rw [hba, max_comm a.2 b.2]

/-- Two sorted well-formed permutations of the same intervals merge to the
same result, from any open interval. -/
theorem mergeAux_perm : ∀ (n : Nat) (l1 l2 : List (Nat × Nat)) (c : Nat × Nat),
    l1.length = n → List.Perm l1 l2 → l1.Sorted byStart →
    l2.Sorted byStart → (∀ iv ∈ l1, iv.1 ≤ iv.2) →
    mergeAux c l1 = mergeAux c l2 := by
  intro n
  induction n with
  | zero =>
    intro l1 l2 c hlen hp _ _ _
    obtain rfl : l1 = [] := List.length_eq_zero.mp hlen
    obtain rfl : l2 = [] := List.Perm.eq_nil hp.symm
    rfl
  | succ n ihn =>
    intro l1 l2 c hlen hp hs1 hs2 hwf
    cases l1 with
    | nil => simp at hlen
    | cons a t1 =>
      cases l2 with
      | nil => exact absurd (List.Perm.eq_nil hp) (by simp)
      | cons b t2 =>
        by_cases hab : a = b
        · subst hab
          have hp1 : List.Perm t1 t2 := List.Perm.cons_inv hp
          have hlen1 : t1.length = n := by simpa using hlen
          have hwf1 : ∀ iv ∈ t1, iv.1 ≤ iv.2 :=
            fun iv hiv => hwf iv (List.mem_cons_of_mem a hiv)
          by_cases hc : a.1 ≤ c.2
          · rw [mergeAux_cons_le c a t1 hc, mergeAux_cons_le c a t2 hc]
            exact ihn t1 t2 _ hlen1 hp1 (List.sorted_cons.mp hs1).2
              (List.sorted_cons.mp hs2).2 hwf1
          · rw [mergeAux_cons_gt c a t1 hc, mergeAux_cons_gt c a t2 hc,
              ihn t1 t2 a hlen1 hp1 (List.sorted_cons.mp hs1).2
                (List.sorted_cons.mp hs2).2 hwf1]
        · have hbl1 : b ∈ a :: t1 := hp.symm.subset (List.mem_cons_self b t2)
          have hmin : ∀ iv ∈ a :: t1, b.1 ≤ iv.1 := by
            intro iv hiv
            rcases List.mem_cons.mp (hp.subset hiv) with rfl | h
            · exact le_refl _
            · exact (List.sorted_cons.mp hs2).1 iv h
          rw [mergeAux_mtf (a :: t1) c b hbl1 hs1 hwf hmin]
          have hperase : List.Perm (eraseFirst b (a :: t1)) t2 :=
            List.Perm.cons_inv ((perm_cons_eraseFirst hbl1).symm.trans hp)
          have hs_erase : (eraseFirst b (a :: t1)).Sorted byStart :=
            List.Pairwise.sublist (eraseFirst_sublist b (a :: t1)) hs1
          have hlen_erase : (eraseFirst b (a :: t1)).length = n := by
            have h1 := length_eraseFirst hbl1
            rw [List.length_cons] at h1 hlen
            omega
          have hwf_erase : ∀ iv ∈ eraseFirst b (a :: t1), iv.1 ≤ iv.2 :=
            fun iv hiv => hwf iv (mem_of_mem_eraseFirst hiv)
          by_cases hc : b.1 ≤ c.2
          · rw [mergeAux_cons_le c b (eraseFirst b (a :: t1)) hc,
              mergeAux_cons_le c b t2 hc]
            exact ihn _ t2 _ hlen_erase hperase hs_erase
              (List.sorted_cons.mp hs2).2 hwf_erase
          · rw [mergeAux_cons_gt c b (eraseFirst b (a :: t1)) hc,
              mergeAux_cons_gt c b t2 hc,
              ihn _ t2 b hlen_erase hperase hs_erase
                (List.sorted_cons.mp hs2).2 hwf_erase]

/-- The merge loop gives the same result on any two sorted well-formed
permutations of the same intervals. -/
theorem mergeCore_perm (l1 l2 : List (Nat × Nat)) (hp : List.Perm l1 l2)
    (hs1 : l1.Sorted byStart) (hs2 : l2.Sorted byStart)
    (hwf : ∀ iv ∈ l1, iv.1 ≤ iv.2) :
    mergeCore l1 = mergeCore l2 := by
  cases l1 with
  | nil =>
    obtain rfl : l2 = [] := List.Perm.eq_nil hp.symm
    rfl
  | cons a t1 =>
    cases l2 with
    | nil => exact absurd (List.Perm.eq_nil hp) (by simp)
    | cons b t2 =>
      show mergeAux a t1 = mergeAux b t2
      by_cases hab : a = b
      · subst hab
        exact mergeAux_perm t1.length t1 t2 a rfl (List.Perm.cons_inv hp)
          (List.sorted_cons.mp hs1).2 (List.sorted_cons.mp hs2).2
          (fun iv hiv => hwf iv (List.mem_cons_of_mem a hiv))
      · have hbl1 : b ∈ a :: t1 := hp.symm.subset (List.mem_cons_self b t2)
        have hbt1 : b ∈ t1 := by
          rcases List.mem_cons.mp hbl1 with h | h
          · exact absurd h.symm hab
          · exact h
        have hba : a.1 = b.1 := by
          refine le_antisymm ((List.sorted_cons.mp hs1).1 b hbt1) ?_
          rcases List.mem_cons.mp (hp.subset (List.mem_cons_self a t1)) with
            h | h
          · exact absurd h hab
          · exact (List.sorted_cons.mp hs2).1 a h
        have hwa : a.1 ≤ a.2 := hwf a (List.mem_cons_self a t1)
        have hwb : b.1 ≤ b.2 := hwf b hbl1
        have hwf_t1 : ∀ iv ∈ t1, iv.1 ≤ iv.2 :=
          fun iv hiv => hwf iv (List.mem_cons_of_mem a hiv)
        have hmin_t1 : ∀ iv ∈ t1, b.1 ≤ iv.1 := fun iv hiv => by
          rw [← hba]; exact (List.sorted_cons.mp hs1).1 iv hiv
        rw [mergeAux_mtf t1 a b hbt1 (List.sorted_cons.mp hs1).2
            hwf_t1 hmin_t1,
          mergeAux_cons_le a b (eraseFirst b t1) (by rw [← hba]; exact hwa)]
        have herase : eraseFirst b (a :: t1) = a :: eraseFirst b t1 := by
          rw [eraseFirst, if_neg hab]
        have hperm2 : List.Perm t2 (a :: eraseFirst b t1) := by
          have h1 := perm_cons_eraseFirst hbl1
          rw [herase] at h1
          exact List.Perm.cons_inv (hp.symm.trans h1)
        have hs_at1e : (a :: eraseFirst b t1).Sorted byStart :=
          List.sorted_cons.mpr
            ⟨fun iv hiv => (List.sorted_cons.mp hs1).1 iv
                (mem_of_mem_eraseFirst hiv),
              List.Pairwise.sublist (eraseFirst_sublist b t1)
                (List.sorted_cons.mp hs1).2⟩
        have hwf_t2 : ∀ iv ∈ t2, iv.1 ≤ iv.2 :=
          fun iv hiv => hwf iv (hp.symm.subset (List.mem_cons_of_mem b hiv))
        rw [mergeAux_perm t2.length t2 (a :: eraseFirst b t1) b rfl hperm2
            (List.sorted_cons.mp hs2).2 hs_at1e hwf_t2,
          mergeAux_cons_le b a (eraseFirst b t1) (by rw [hba]; exact hwb)]
        show mergeAux (a.1, max a.2 b.2) (eraseFirst b t1)
          = mergeAux (b.1, max b.2 a.2) (eraseFirst b t1)
        rw [hba, max_comm a.2 b.2]

/-- Claim C6: the concrete merge cases hold, and the merge is independent of
the input order: permuted inputs of well-formed intervals produce the
identical output list. -/
theorem c6_merge_cases_and_perm :
    mergeIntervals [(0, 3), (2, 5), (8, 10)] = [(0, 5), (8, 10)] ∧
    mergeIntervals [] = [] ∧
    mergeIntervals [(5, 8), (0, 2)] = [(0, 2), (5, 8)] ∧
    ∀ l1 l2 : List (Nat × Nat), List.Perm l1 l2 →
      (∀ iv ∈ l1, iv.1 ≤ iv.2) → mergeIntervals l1 = mergeIntervals l2 := by
  refine ⟨by decide, rfl, by decide, ?_⟩
  intro l1 l2 hp hwf
  rw [mergeIntervals, mergeIntervals]
  exact mergeCore_perm (sortIntervals l1) (sortIntervals l2)
    ((sortIntervals_perm l1).trans (hp.trans (sortIntervals_perm l2).symm))
    (sortIntervals_sorted l1) (sortIntervals_sorted l2)
    (fun iv hiv => hwf iv ((sortIntervals_perm l1).subset hiv))

/-- Witness for C6: the permuted inputs [(5,8),(0,2)] and [(0,2),(5,8)]
merge identically. -/
theorem c6_witness :
    List.Perm [((5 : Nat), (8 : Nat)), (0, 2)] [(0, 2), (5, 8)] ∧
    (∀ iv ∈ ([(5, 8), (0, 2)] : List (Nat × Nat)), iv.1 ≤ iv.2) ∧
    mergeIntervals [(5, 8), (0, 2)] = mergeIntervals [(0, 2), (5, 8)] :=
  ⟨by decide, by decide,
    c6_merge_cases_and_perm.2.2.2 [(5, 8), (0, 2)] [(0, 2), (5, 8)]
      (by decide) (by decide)⟩

/-- Claim C7: the interval merge is idempotent: applying `mergeIntervals` to
its own output returns that output unchanged, for every input list. -/
theorem c7_merge_idempotent (l : List (Nat × Nat)) :
    mergeIntervals (mergeIntervals l) = mergeIntervals l := by
  rw [mergeIntervals, mergeIntervals]
  cases hs : sortIntervals l with
  | nil => rfl
  | cons a t =>
    have hsorted : (a :: t).Sorted byStart := by
      rw [← hs]; exact sortIntervals_sorted l
    have hout_sorted := mergeAux_sorted t a hsorted
    have hchain := mergeAux_chain t a
    show mergeCore (sortIntervals (mergeAux a t)) = mergeAux a t
    rw [sortIntervals_of_sorted hout_sorted]
    obtain ⟨e, t2, heq⟩ := mergeAux_head t a
    rw [heq] at hchain ⊢
    show mergeAux (a.1, e) t2 = (a.1, e) :: t2
    exact mergeAux_id t2 (a.1, e) hchain

/-- Witness for C10: in "Abab" the word "ab" is recorded once, at its
leftmost occurrence (0, 2) in the lowercased text, not at position 2. -/
theorem c10_witness :
    ((0, 2) ∈ found_intervals ['A', 'b', 'a', 'b'] [['a', 'b']]) ∧
    ∃ w ∈ [(['a', 'b'] : PyStr)],
      ((0, 2) : Nat × Nat).2 = ((0, 2) : Nat × Nat).1 + w.length ∧
      w <+: ((['A', 'b', 'a', 'b'] : PyStr).map Char.toLower).drop
        ((0, 2) : Nat × Nat).1 ∧
      ∀ j, j < ((0, 2) : Nat × Nat).1 →
        ¬ w <+: ((['A', 'b', 'a', 'b'] : PyStr).map Char.toLower).drop j :=
  ⟨by decide,
    (c10_found_intervals_leftmost ['A', 'b', 'a', 'b'] [['a', 'b']]).2
      (0, 2) (by decide)⟩

end QubesMenu
